import Mathlib

set_option maxRecDepth 1000000

/-!
Verification of the smart-nlp-package core (src/core.py).

The Python source is shallowly embedded: Python strings are Lean `String`
(lists of characters), Python floats are modelled exactly by rationals,
Python dicts are association lists that preserve insertion order, and the
standard-library helper `difflib.SequenceMatcher.ratio` is modelled by the
documented matching-blocks algorithm (recursively take the longest matching
block, earliest in the first string and then in the second on ties, and
recurse on both sides; junk heuristics are disabled, which coincides with
the library behaviour on the short strings the package compares).

Because the Mathlib rational operations are irreducible and therefore
opaque to kernel evaluation, the embedding computes with a small layer of
definitionally transparent rational operations (`qadd`, `qmul`, ...) built
on `mkRat`; each is proved equal to the corresponding Mathlib operation,
so theorems can be stated and proved with the ordinary arithmetic.
-/

/-! ### A reduction-friendly rational layer -/

/-- Addition on rationals by cross multiplication. -/
def qadd (a b : ℚ) : ℚ := mkRat (a.num * b.den + b.num * a.den) (a.den * b.den)

/-- Negation on rationals. -/
def qneg (a : ℚ) : ℚ := mkRat (-a.num) a.den

/-- Subtraction on rationals. -/
def qsub (a b : ℚ) : ℚ := qadd a (qneg b)

/-- Multiplication on rationals. -/
def qmul (a b : ℚ) : ℚ := mkRat (a.num * b.num) (a.den * b.den)

/-- Reciprocal on rationals, sending 0 to 0. -/
def qinv (a : ℚ) : ℚ := mkRat (a.num.sign * a.den) a.num.natAbs

/-- Division on rationals. -/
def qdiv (a b : ℚ) : ℚ := qmul a (qinv b)

/-- Absolute value on rationals. -/
def qabs (a : ℚ) : ℚ := mkRat (a.num.natAbs) a.den

/-- Maximum of two rationals. -/
def qmax (a b : ℚ) : ℚ := if a ≤ b then b else a

/-- Floor of a rational. -/
def qfloor (a : ℚ) : ℤ := Int.fdiv a.num a.den

/-- Sum of a list of rationals, folded from the left as Python `sum`
does. -/
def qsum (l : List ℚ) : ℚ := l.foldl qadd 0

/-! ### String helpers shared by the tokenizers -/

/-- The uppercase-to-lowercase table of ASCII codes. -/
def upperLowerTable : List (Nat × Nat) :=
  [(65, 97), (66, 98), (67, 99), (68, 100), (69, 101), (70, 102),
   (71, 103), (72, 104), (73, 105), (74, 106), (75, 107), (76, 108),
   (77, 109), (78, 110), (79, 111), (80, 112), (81, 113), (82, 114),
   (83, 115), (84, 116), (85, 117), (86, 118), (87, 119), (88, 120),
   (89, 121), (90, 122)]

/-- ASCII lowercasing of one character, as Python `str.lower` acts on the
ASCII range; written as an explicit table so facts about it follow by
enumeration. -/
def lowerChar (c : Char) : Char :=
  match upperLowerTable.find? (fun pr => pr.1 = c.toNat) with
  | some pr => Char.ofNat pr.2
  | none => c

/-- Python `text.lower()` on a whole string. -/
def pyLower (s : String) : String := ⟨s.toList.map lowerChar⟩

/-- Python whitespace characters recognised by `str.split()` and
`str.strip()` (space, tab, newline, carriage return, vertical tab, form
feed). -/
def isPyWs (c : Char) : Bool :=
  c.toNat = 32 || c.toNat = 9 || c.toNat = 10 || c.toNat = 13 ||
  c.toNat = 11 || c.toNat = 12

/-- Word characters matched by the regex class w in the ASCII range:
letters, digits and the underscore. -/
def isWordChar (c : Char) : Bool := c.isAlphanum || c = Char.ofNat 95

/-- Collect the maximal runs of characters satisfying `isWordChar`
(the regex of word runs used by `tokenize` matches exactly these). -/
def runsGo : List Char → List Char → List (List Char)
  | [], acc => if acc.isEmpty then [] else [acc.reverse]
  | c :: cs, acc =>
    if isWordChar c then runsGo cs (c :: acc)
    else if acc.isEmpty then runsGo cs [] else acc.reverse :: runsGo cs []

/-- Module-level `tokenize` of core.py: lowercase, then extract the maximal
word-character runs. -/
def tokenize (text : String) : List String :=
  (runsGo (pyLower text).toList []).map (fun l => ⟨l⟩)

/-- Python `str.split()` with no separator: split on whitespace runs,
discarding empty pieces. -/
def splitWsGo : List Char → List Char → List (List Char)
  | [], acc => if acc.isEmpty then [] else [acc.reverse]
  | c :: cs, acc =>
    if isPyWs c then
      if acc.isEmpty then splitWsGo cs [] else acc.reverse :: splitWsGo cs []
    else splitWsGo cs (c :: acc)

/-- Python `text.split()`. -/
def pySplitWs (s : String) : List String := (splitWsGo s.toList []).map (fun l => ⟨l⟩)

/-- The ASCII punctuation characters of `string.punctuation` (codes 33-47,
58-64, 91-96 and 123-126). -/
def pyPunctuation : List Char :=
  ((List.range 127).filter (fun n =>
    decide ((33 ≤ n ∧ n ≤ 47) ∨ (58 ≤ n ∧ n ≤ 64) ∨
            (91 ≤ n ∧ n ≤ 96) ∨ (123 ≤ n ∧ n ≤ 126)))).map Char.ofNat

/-- `word.translate` with a deletion table for `string.punctuation`:
delete every punctuation character, wherever it occurs. -/
def stripPunct (w : String) : String :=
  ⟨w.toList.filter (fun c => !(pyPunctuation.contains c))⟩

/-- The fixed suffix list of the strict tokenizer, in source order. -/
def suffixList : List String := ["ing", "ly", "ed", "es"]

/-- Drop the final `n` characters of a string. -/
def dropRightStr (w : String) (n : Nat) : String :=
  ⟨w.toList.take (w.toList.length - n)⟩

/-- Single-suffix stemming of the strict tokenizer: remove the first
suffix of `suffixList` that ends the word, provided the word is more than
two characters longer than the suffix. -/
def stem (w : String) : String :=
  match suffixList.find? (fun suf =>
      suf.toList.isSuffixOf w.toList && decide (suf.length + 2 < w.length)) with
  | some suf => dropRightStr w suf.length
  | none => w

/-- The auxiliary and question words the strict tokenizer discards after
stemming. -/
def auxWords : List String := ["is", "are", "was", "were", "why", "how"]

/-- Python `word.strip()`: remove leading and trailing whitespace. -/
def stripWs (w : String) : String :=
  ⟨((w.toList.dropWhile isPyWs).reverse.dropWhile isPyWs).reverse⟩

/-- Processing of one whitespace-delimited piece in `NLP.tokenize`:
lowercase, delete punctuation, stem one suffix, discard auxiliary words,
strip, and discard empty results. -/
def pieceToToken (piece : String) : Option String :=
  let w := stem (stripPunct (pyLower piece))
  if w ∈ auxWords then none
  else
    let w2 := stripWs w
    if w2 = "" then none else some w2

/-! ### The similarity measure: difflib.SequenceMatcher.ratio -/

/-- Length of the common prefix of two character lists. -/
def runLen : List Char → List Char → Nat
  | a :: as, b :: bs => if a = b then runLen as bs + 1 else 0
  | _, _ => 0

/-- The candidate block starting at scan index `idx`: start position
`(idx / lb, idx % lb)` together with the length of the common run from
there.  Scan indices enumerate start positions in row-major order, the
order in which `find_longest_match` discovers blocks. -/
def lcsPair (a b : List Char) (lb idx : Nat) : Nat × Nat × Nat :=
  (idx / lb, idx % lb, runLen (a.drop (idx / lb)) (b.drop (idx % lb)))

/-- Keep the better of two candidate blocks, preferring the first (the one
earlier in scan order) unless the second is strictly longer, as the
strict-improvement updates of `find_longest_match` do. -/
def bestCell (c1 c2 : Nat × Nat × Nat) : Nat × Nat × Nat :=
  match c1, c2 with
  | (i1, j1, k1), (i2, j2, k2) => if k1 < k2 then (i2, j2, k2) else (i1, j1, k1)

/-- The best candidate block over the scan indices `[lo, lo + len)`,
computed by halving so that evaluation depth stays logarithmic; the fuel
argument only drives the recursion and any value at least `len` gives the
same result. -/
def lcsSpan (a b : List Char) (lb : Nat) : Nat → Nat → Nat → Nat × Nat × Nat
  | 0, _, _ => (0, 0, 0)
  | fuel + 1, lo, len =>
    if len = 0 then (0, 0, 0)
    else if len = 1 then lcsPair a b lb lo
    else
      bestCell (lcsSpan a b lb fuel lo (len / 2))
        (lcsSpan a b lb fuel (lo + len / 2) (len - len / 2))

/-- The longest matching block `(i, j, size)` of two character lists,
taking on ties the block that starts earliest in `a` and then earliest in
`b`, which is the block `find_longest_match` selects with junk disabled. -/
def lcsBlock (a b : List Char) : Nat × Nat × Nat :=
  lcsSpan a b b.length (a.length * b.length) 0 (a.length * b.length)

/-- Total size of all matching blocks: take the longest block and recurse
on the material to its left and to its right, as `get_matching_blocks`
does.  The recursion is fed the fuel `a.length + b.length`, which always
suffices because every nonzero block strictly shrinks both windows. -/
def matchTotalGo : Nat → List Char → List Char → Nat
  | 0, _, _ => 0
  | fuel + 1, a, b =>
    match lcsBlock a b with
    | (i, j, k) =>
      if k = 0 then 0
      else
        k + matchTotalGo fuel (a.take i) (b.take j) +
          matchTotalGo fuel (a.drop (i + k)) (b.drop (j + k))

/-- Total matched characters between two character lists. -/
def matchTotal (a b : List Char) : Nat := matchTotalGo (a.length + b.length) a b

/-- `SequenceMatcher.ratio`: twice the matched total over the combined
length, and 1 when both strings are empty. -/
def seqRatio (a b : List Char) : ℚ :=
  let t := a.length + b.length
  if t = 0 then 1 else mkRat (2 * (matchTotal a b : Int)) t

/-- The `fuzzy_ratio` helper of core.py.  Both call sites pass strings, so
the string coercion branch is the identity, and the exception handler is
dead in this total model. -/
def fuzzy_ratio (a b : String) : ℚ := seqRatio a.toList b.toList

/-! ### Synonym expansion -/

/-- The static synonym table of `expand_tokens`. -/
def synonym_map : List (String × List String) := [
  ("dob", ["date of birth", "birth", "born", "birthday"]),
  ("birth", ["dob", "date of birth", "born", "birthday"]),
  ("born", ["dob", "birth", "date of birth", "birthday"]),
  ("wife", ["spouse", "partner"]),
  ("husband", ["spouse", "partner"]),
  ("money", ["worth", "income", "salary", "wealth"]),
  ("runs", ["score", "scored", "innings"]),
  ("value", ["worth", "valuation", "net worth"]),
  ("brand", ["company", "business"])]

/-- Add an element to a duplicate-free list, keeping first insertion
order.  Python sets do not expose a specified order; the embedding fixes
insertion order, and every claim proved below is independent of the
enumeration order chosen here. -/
def dedupAdd (l : List String) (x : String) : List String :=
  if x ∈ l then l else l ++ [x]

/-- `expand_tokens` of core.py: the token set united with the synonyms of
every token present in the table. -/
def expand_tokens (tokens : List String) : List String :=
  tokens.foldl (fun acc tok =>
    match synonym_map.lookup tok with
    | some syns => syns.foldl dedupAdd acc
    | none => acc) (tokens.foldl dedupAdd [])

/-! ### The memory tree -/

/-- A Python value as handled by core.py: strings, integers, booleans,
None, lists, and insertion-ordered dicts with string keys. -/
inductive Val where
  | vstr (s : String)
  | vnum (n : Int)
  | vbool (b : Bool)
  | vnone
  | vlist (xs : List Val)
  | vdict (entries : List (String × Val))

mutual
/-- Boolean equality of values. -/
def valBEq : Val → Val → Bool
  | .vstr a, .vstr b => a = b
  | .vnum a, .vnum b => a = b
  | .vbool a, .vbool b => a = b
  | .vnone, .vnone => true
  | .vlist a, .vlist b => valListBEq a b
  | .vdict a, .vdict b => valEntriesBEq a b
  | _, _ => false
termination_by structural a => a

/-- Boolean equality of value lists. -/
def valListBEq : List Val → List Val → Bool
  | [], [] => true
  | a :: as, b :: bs => valBEq a b && valListBEq as bs
  | _, _ => false
termination_by structural a => a

/-- Boolean equality of dict entry lists. -/
def valEntriesBEq : List (String × Val) → List (String × Val) → Bool
  | [], [] => true
  | (ka, va) :: as, (kb, vb) :: bs => ka = kb && valBEq va vb && valEntriesBEq as bs
  | _, _ => false
termination_by structural a => a
end

mutual
/-- Boolean equality of values agrees with propositional equality. -/
def valBEq_iff : ∀ a b : Val, valBEq a b = true ↔ a = b
  | .vstr a, b => by cases b <;> simp [valBEq]
  | .vnum a, b => by cases b <;> simp [valBEq]
  | .vbool a, b => by cases b <;> simp [valBEq]
  | .vnone, b => by cases b <;> simp [valBEq]
  | .vlist a, b => by cases b <;> simp [valBEq, valListBEq_iff a]
  | .vdict a, b => by cases b <;> simp [valBEq, valEntriesBEq_iff a]
termination_by structural a => a

/-- Boolean equality of value lists agrees with propositional equality. -/
def valListBEq_iff : ∀ a b : List Val, valListBEq a b = true ↔ a = b
  | [], b => by cases b <;> simp [valListBEq]
  | a :: as, b => by
    cases b <;> simp [valListBEq, valBEq_iff a, valListBEq_iff as]
termination_by structural a => a

/-- Boolean equality of entry lists agrees with propositional equality. -/
def valEntriesBEq_iff : ∀ a b : List (String × Val), valEntriesBEq a b = true ↔ a = b
  | [], b => by cases b <;> simp [valEntriesBEq]
  | (ka, va) :: as, b => by
    cases b with
    | nil => simp [valEntriesBEq]
    | cons hd tl =>
      obtain ⟨kb, vb⟩ := hd
      simp [valEntriesBEq, valBEq_iff va, valEntriesBEq_iff as, and_assoc]
termination_by structural a => a
end

instance : DecidableEq Val := fun a b => decidable_of_iff (valBEq a b = true) (valBEq_iff a b)

/-- A single-quote character, used by the Python repr of strings. -/
def sglq : String := String.singleton (Char.ofNat 39)

mutual
/-- Python `str()` of a value (string escaping inside container reprs is
not modelled; no claim exercises it). -/
def pyStr : Val → String
  | .vstr s => s
  | .vnum n => toString n
  | .vbool true => "True"
  | .vbool false => "False"
  | .vnone => "None"
  | .vlist xs => "[" ++ ", ".intercalate (pyReprList xs) ++ "]"
  | .vdict es => "\x7b" ++ ", ".intercalate (pyReprEntries es) ++ "\x7d"

/-- Python `repr()` of a value. -/
def pyRepr : Val → String
  | .vstr s => sglq ++ s ++ sglq
  | .vnum n => toString n
  | .vbool true => "True"
  | .vbool false => "False"
  | .vnone => "None"
  | .vlist xs => "[" ++ ", ".intercalate (pyReprList xs) ++ "]"
  | .vdict es => "\x7b" ++ ", ".intercalate (pyReprEntries es) ++ "\x7d"
termination_by structural v => v

/-- The reprs of the elements of a list. -/
def pyReprList : List Val → List String
  | [] => []
  | x :: xs => pyRepr x :: pyReprList xs
termination_by structural xs => xs

/-- The reprs of the entries of a dict. -/
def pyReprEntries : List (String × Val) → List String
  | [] => []
  | e :: es => (sglq ++ e.1 ++ sglq ++ ": " ++ pyRepr e.2) :: pyReprEntries es
termination_by structural es => es
end

/-! ### The NLP class -/

/-- An NLP instance holds the memo dict it was constructed with. -/
structure NLP where
  memo : List (String × Val)

/-- The constructor of the NLP class: it type-checks that the memo is a
dict and raises otherwise. -/
def mkNLP (memo : Val) : Except String NLP :=
  match memo with
  | .vdict es => .ok ⟨es⟩
  | _ => .error "memo must be a dictionary"

/-- The strict tokenizer method `NLP.tokenize` (the unused local
`stopwords` list of the source is dead and not modelled). -/
def NLP.tokenize (_self : NLP) (text : String) : List String :=
  (pySplitWs text).filterMap pieceToToken

/-- Join a path with dots, as command detection serializes paths. -/
def joinDot (path : List String) : String := ".".intercalate path

/-- The similarity threshold 0.8 of `deep_search`. -/
def simThreshold : ℚ := mkRat 4 5

mutual
/-- `NLP.deep_search`: depth-first search for the first tree location
whose string value (or string list element) fuzzily matches the word. -/
def deep_search (data : Val) (word : String) (path : List String) :
    Option (String × String) :=
  match data with
  | .vdict es => deepSearchEntries es word path
  | .vlist xs => deepSearchItems xs word path 0
  | _ => none
termination_by structural data

/-- The dict loop of `deep_search`: string values and string elements of
list values are tested against the similarity threshold; dict values are
searched recursively; other values are skipped. -/
def deepSearchEntries (es : List (String × Val)) (word : String)
    (path : List String) : Option (String × String) :=
  match es with
  | [] => none
  | (k, v) :: rest =>
    match v with
    | .vstr s =>
      if simThreshold < fuzzy_ratio word s then some (joinDot (path ++ [k]), word)
      else deepSearchEntries rest word path
    | .vlist xs =>
      if xs.any (fun x => match x with
          | .vstr s => decide (simThreshold < fuzzy_ratio word s)
          | _ => false) then
        some (joinDot (path ++ [k]), word)
      else deepSearchEntries rest word path
    | .vdict _ =>
      match deep_search v word (path ++ [k]) with
      | some r => some r
      | none => deepSearchEntries rest word path
    | _ => deepSearchEntries rest word path
termination_by structural es

/-- The list branch of `deep_search`, reachable only when `deep_search`
is called on a list directly: recurse into every element with an index
segment appended to the path. -/
def deepSearchItems (xs : List Val) (word : String) (path : List String)
    (i : Nat) : Option (String × String) :=
  match xs with
  | [] => none
  | x :: rest =>
    match deep_search x word (path ++ ["[" ++ toString i ++ "]"]) with
    | some r => some r
    | none => deepSearchItems rest word path (i + 1)
termination_by structural xs
end

/-- Write a key into a Python dict modelled as an association list:
an existing key keeps its position and gets the new value, a new key is
appended. -/
def dictSet (m : List (String × String)) (k v : String) : List (String × String) :=
  if m.any (fun e => e.1 = k) then
    m.map (fun e => if e.1 = k then (k, v) else e)
  else m ++ [(k, v)]

/-- `NLP.detect_commands`: resolve each token through `deep_search` on the
memo, collecting matches into a path-to-token dict and failures into the
unfound list. -/
def NLP.detect_commands (self : NLP) (tokens : List String) :
    List (String × String) × List String :=
  tokens.foldl (fun acc word =>
    match deep_search (.vdict self.memo) word [] with
    | some r => (dictSet acc.1 r.1 r.2, acc.2)
    | none => (acc.1, acc.2 ++ [word])) ([], [])

/-! ### The tree walker, scorer and ranked search -/

/-- Python `needle in hay` on strings. -/
def isSubstr (needle hay : String) : Bool :=
  (List.range (hay.toList.length + 1)).any
    (fun i => needle.toList.isPrefixOf (hay.toList.drop i))

/-- Python `hay.find(needle)`: index of the first occurrence, or -1. -/
def pyFind (hay needle : String) : Int :=
  match (List.range (hay.toList.length + 1)).find?
      (fun i => needle.toList.isPrefixOf (hay.toList.drop i)) with
  | some i => (i : Int)
  | none => -1

mutual
/-- `NLP._search_json`: recursively walk the tree, recording a candidate
for every dict key whose tokens fuzzily match a query token and for every
string value with a fuzzily matching token. -/
def search_json (d : Val) (tokens : List String) (focus : Option String)
    (path : String) : List (String × Val) :=
  match d with
  | .vdict es => searchEntries es tokens focus path
  | .vlist xs => searchItems xs tokens focus path 0
  | .vstr s =>
    if tokens.any (fun tok => (tokenize s).any
        (fun vt => decide (simThreshold < fuzzy_ratio tok vt))) then
      [(path, .vstr s)]
    else []
  | _ => []
termination_by structural d

/-- The dict loop of `_search_json`, including the focus-entity skip of
subtrees that enumerate named persons. -/
def searchEntries (es : List (String × Val)) (tokens : List String)
    (focus : Option String) (path : String) : List (String × Val) :=
  match es with
  | [] => []
  | (k, v) :: rest =>
    let new_path := if path = "" then k else path ++ " → " ++ k
    let skip : Bool :=
      match focus with
      | some f =>
        decide (f ≠ "") && !(isSubstr f (pyLower new_path)) &&
          isSubstr "persons" (pyLower new_path)
      | none => false
    if skip then searchEntries rest tokens focus path
    else
      (if tokens.any (fun tok => (tokenize k).any
          (fun kt => decide (simThreshold < fuzzy_ratio tok kt))) then
        [(new_path, v)]
      else []) ++ search_json v tokens focus new_path ++
        searchEntries rest tokens focus path
termination_by structural es

/-- The list loop of `_search_json`: recurse into every element with an
index marker appended to the path. -/
def searchItems (xs : List Val) (tokens : List String) (focus : Option String)
    (path : String) (i : Nat) : List (String × Val) :=
  match xs with
  | [] => []
  | x :: rest =>
    search_json x tokens focus (path ++ "[" ++ toString i ++ "]") ++
      searchItems rest tokens focus path (i + 1)
termination_by structural xs
end

/-- The length penalty term of `_score_match`: longer flattened text
scores lower, floored at 0. -/
def lengthPenalty (n : Nat) : ℚ := qmax 0 (qsub 3 (qdiv (n : ℚ) 150))

/-- Python `round` to two decimal places with ties to even, applied to the
exact rational value of the score. -/
def roundHalfEven (q : ℚ) : ℤ :=
  let f := qfloor q
  let r := qsub q (mkRat f 1)
  if r < mkRat 1 2 then f
  else if mkRat 1 2 < r then f + 1
  else if f % 2 = 0 then f else f + 1

/-- Round a rational to two decimal places. -/
def pyRound2 (q : ℚ) : ℚ := mkRat (roundHalfEven (qmul q 100)) 100

/-- Flatten a candidate value to lowercase searchable text, exactly as
`_score_match` builds `val_str`. -/
def flattenVal (val : Val) : String :=
  match val with
  | .vstr s => pyLower s
  | .vlist xs => " ".intercalate (xs.map (fun v => pyLower (pyStr v)))
  | .vdict es => " ".intercalate (es.map (fun e => pyLower (pyStr e.2)))
  | v => pyLower (pyStr v)

/-- The combined searchable text of `_score_match`: the lowercased path
followed by the flattened value text. -/
def smCombined (val : Val) (path : String) : String :=
  pyLower path ++ " " ++ flattenVal val

/-- Token overlap term of `_score_match`: how many query tokens occur as
literal substrings of the combined text. -/
def smOverlap (tokens : List String) (combined : String) : Nat :=
  (tokens.filter (fun t => isSubstr t combined)).length

/-- Fuzzy contribution of `_score_match`: the mean of the
token-to-combined-text similarities exceeding 0.7, or 0 when none do. -/
def smFuzzyAvg (tokens : List String) (combined : String) : ℚ :=
  let strong_fuzzy := (tokens.map (fun t => fuzzy_ratio t combined)).filter
    (fun f => decide (mkRat 7 10 < f))
  if strong_fuzzy.isEmpty then 0
  else qdiv (qsum strong_fuzzy) (strong_fuzzy.length : ℚ)

/-- Proximity bonus of `_score_match`: first occurrence offsets of the
tokens present in the combined text, mean absolute consecutive distance,
and the capped bonus when at least two offsets exist. -/
def smProximity (tokens : List String) (combined : String) : ℚ :=
  let positions : List ℚ :=
    tokens.filterMap (fun t =>
      if isSubstr t combined then some ((pyFind combined t : ℚ)) else none)
  if 1 < positions.length then
    let distances := (positions.zip positions.tail).map
      (fun pr => qabs (qsub pr.2 pr.1))
    let avg := qdiv (qsum distances) (distances.length : ℚ)
    qmax 0 (qsub 10 (qdiv avg 40))
  else 0

/-- `NLP._score_match`: combined overlap, fuzzy, proximity and length
terms, with the irrelevance short-circuit and final rounding. -/
def score_match (val : Val) (tokens : List String) (path : String) : ℚ :=
  let combined := smCombined val path
  if smOverlap tokens combined = 0 ∧ smFuzzyAvg tokens combined < mkRat 1 2 then 0
  else
    pyRound2 (qadd (qadd (qadd (qmul (smOverlap tokens combined : ℚ) (mkRat 7 2))
      (qmul (smFuzzyAvg tokens combined) 5)) (smProximity tokens combined))
      (lengthPenalty (flattenVal val).length))

/-- The scored candidate list `smart_search` builds before sorting:
walker candidates paired with their composite scores. -/
def scoredCandidates (query : String) (data : Val) : List (ℚ × String × Val) :=
  let tokens := expand_tokens (tokenize query)
  (search_json data tokens none "").map (fun pv => (score_match pv.2 tokens pv.1, pv))

/-- The descending-score comparison used to sort scored candidates. -/
def scoreGe (a b : ℚ × String × Val) : Prop := b.1 ≤ a.1

instance : DecidableRel scoreGe := fun a b => inferInstanceAs (Decidable (b.1 ≤ a.1))

/-- `NLP.smart_search`: score all walker candidates, sort them by
descending score with a stable sort (Python `list.sort` is stable), keep
those at or above the threshold 3.0, and fall back to the sentinel pair
when none survive. -/
def NLP.smart_search (_self : NLP) (query : String) (data : Val) :
    List (String × Val) :=
  let ordered := (scoredCandidates query data).insertionSort scoreGe
  let strong := (ordered.filter (fun c => decide (3 ≤ c.1))).map (fun c => c.2)
  if strong.isEmpty then [("not in memory", Val.vnone)] else strong

/-- The `NLP._extract_entities` helper: lowercased person names when the
tree has the conventional info.persons section. -/
def extract_entities (data : Val) : List String :=
  match data with
  | .vdict es =>
    match es.lookup "info" with
    | some (.vdict es2) =>
      match es2.lookup "persons" with
      | some (.vdict ps) => ps.map (fun p => pyLower p.1)
      | _ => []
    | _ => []
  | _ => []

/-- The memory tree of the birthday scenario in the specification. -/
def aliceTree : Val :=
  .vdict [("info", .vdict [("persons",
    .vdict [("alice", .vdict [("dob", .vstr "1990-05-01")])])])]

/-! ## Properties of the rational layer -/

theorem qadd_eq (a b : ℚ) : qadd a b = a + b := by
  rw [qadd, Rat.mkRat_eq_div]
  push_cast
  conv_rhs => rw [← Rat.num_div_den a, ← Rat.num_div_den b]
  rw [div_add_div _ _ (show ((a.den : ℚ)) ≠ 0 by exact_mod_cast a.den_nz)
      (show ((b.den : ℚ)) ≠ 0 by exact_mod_cast b.den_nz)]
  ring_nf

theorem qneg_eq (a : ℚ) : qneg a = -a := by
  rw [qneg, Rat.mkRat_eq_div]
  push_cast
  rw [neg_div, Rat.num_div_den]

theorem qsub_eq (a b : ℚ) : qsub a b = a - b := by
  rw [qsub, qadd_eq, qneg_eq, sub_eq_add_neg]

theorem qmul_eq (a b : ℚ) : qmul a b = a * b := by
  rw [qmul, Rat.mkRat_eq_div]
  push_cast
  conv_rhs => rw [← Rat.num_div_den a, ← Rat.num_div_den b]
  rw [div_mul_div_comm]

theorem qinv_eq (a : ℚ) : qinv a = a⁻¹ := by
  rcases eq_or_ne a 0 with rfl | h
  · rw [inv_zero]; decide
  · have hnum : a.num ≠ 0 := Rat.num_ne_zero.mpr h
    have hs : ((a.num.sign : ℚ)) ≠ 0 := by
      have h2 : a.num.sign ≠ 0 := by simpa [Int.sign_eq_zero_iff_zero] using hnum
      exact_mod_cast h2
    have hna : ((a.num.natAbs : ℚ)) ≠ 0 := by
      have h2 : a.num.natAbs ≠ 0 := Int.natAbs_ne_zero.mpr hnum
      exact_mod_cast h2
    rw [qinv, Rat.mkRat_eq_div]
    conv_rhs => rw [← Rat.num_div_den a]
    rw [inv_div]
    conv_rhs => rw [← Int.sign_mul_natAbs a.num]
    push_cast
    rw [show |(a.num : ℚ)| = ((a.num.natAbs : ℚ)) from by
      rw [← Int.cast_abs, Int.abs_eq_natAbs, Int.cast_natCast]]
    rw [div_eq_div_iff hna (mul_ne_zero hs hna)]
    have hs2 : ((a.num.sign : ℚ)) * a.num.sign = 1 := by
      rcases hnum.lt_or_lt with hlt | hlt
      · rw [Int.sign_eq_neg_one_of_neg hlt]; norm_num
      · rw [Int.sign_eq_one_of_pos hlt]; norm_num
    calc (a.num.sign : ℚ) * a.den * (a.num.sign * a.num.natAbs)
        = a.num.sign * a.num.sign * (a.den * a.num.natAbs) := by ring
      _ = 1 * (a.den * a.num.natAbs) := by rw [hs2]
      _ = a.den * a.num.natAbs := one_mul _

theorem qdiv_eq (a b : ℚ) : qdiv a b = a / b := by
  rw [qdiv, qmul_eq, qinv_eq, div_eq_mul_inv]

theorem qabs_eq (a : ℚ) : qabs a = |a| := by
  rcases le_or_lt 0 a.num with hn | hn
  · have h0 : 0 ≤ a := Rat.num_nonneg.mp hn
    rw [qabs]
    rw [show ((a.num.natAbs : ℤ)) = a.num from Int.natAbs_of_nonneg hn]
    rw [Rat.mkRat_self, abs_of_nonneg h0]
  · have h0 : a < 0 := by
      by_contra hc
      push_neg at hc
      exact absurd (Rat.num_nonneg.mpr hc) (not_le.mpr hn)
    rw [qabs]
    rw [show ((a.num.natAbs : ℤ)) = -a.num from Int.ofNat_natAbs_of_nonpos hn.le]
    rw [show mkRat (-a.num) a.den = qneg a from rfl, qneg_eq, abs_of_neg h0]

theorem qmax_eq (a b : ℚ) : qmax a b = max a b := by
  unfold qmax
  split_ifs with h
  · exact (max_eq_right h).symm
  · exact (max_eq_left (le_of_not_le h)).symm

theorem qsum_go (l : List ℚ) : ∀ init : ℚ, l.foldl qadd init = init + l.sum := by
  induction l with
  | nil => intro init; simp
  | cons a l ih =>
    intro init
    simp only [List.foldl_cons, List.sum_cons, ih, qadd_eq]
    ring

theorem qsum_eq (l : List ℚ) : qsum l = l.sum := by
  rw [qsum, qsum_go]; ring

theorem qfloor_nonneg (a : ℚ) (h : 0 ≤ a) : 0 ≤ qfloor a :=
  Int.fdiv_nonneg (Rat.num_nonneg.mpr h) (by exact_mod_cast Nat.zero_le a.den)

theorem mkRat_nonneg (n : ℤ) (d : Nat) (h : 0 ≤ n) : 0 ≤ mkRat n d := by
  rw [Rat.mkRat_eq_div]
  exact div_nonneg (by exact_mod_cast h) (by exact_mod_cast Nat.zero_le d)

theorem pyRound2_nonneg (q : ℚ) (h : 0 ≤ q) : 0 ≤ pyRound2 q := by
  have hq : 0 ≤ qmul q 100 := by
    rw [qmul_eq]
    positivity
  have hf : 0 ≤ qfloor (qmul q 100) := qfloor_nonneg _ hq
  have hr : 0 ≤ roundHalfEven (qmul q 100) := by
    rw [roundHalfEven]
    split_ifs <;> omega
  exact mkRat_nonneg _ _ hr

/-! ## Properties of the similarity measure -/

theorem runLen_le_left : ∀ x y : List Char, runLen x y ≤ x.length
  | [], _ => by simp [runLen]
  | _ :: _, [] => by simp [runLen]
  | a :: as, b :: bs => by
    rw [runLen]
    split_ifs
    · simpa using runLen_le_left as bs
    · simp

theorem runLen_le_right : ∀ x y : List Char, runLen x y ≤ y.length
  | [], _ => by simp [runLen]
  | _ :: _, [] => by simp [runLen]
  | a :: as, b :: bs => by
    rw [runLen]
    split_ifs
    · simpa using runLen_le_right as bs
    · simp

theorem runLen_self : ∀ x : List Char, runLen x x = x.length
  | [] => by simp [runLen]
  | a :: as => by simp [runLen, runLen_self as]

theorem bestCell_eq_or (c1 c2 : Nat × Nat × Nat) :
    bestCell c1 c2 = c1 ∨ bestCell c1 c2 = c2 := by
  obtain ⟨i1, j1, k1⟩ := c1
  obtain ⟨i2, j2, k2⟩ := c2
  rw [bestCell]
  split_ifs
  · right; rfl
  · left; rfl

theorem bestCell_left (c1 c2 : Nat × Nat × Nat) (h : c2.2.2 ≤ c1.2.2) :
    bestCell c1 c2 = c1 := by
  obtain ⟨i1, j1, k1⟩ := c1
  obtain ⟨i2, j2, k2⟩ := c2
  rw [bestCell]
  rw [if_neg (by simpa using not_lt.mpr h)]

theorem lcsSpan_le (a b : List Char) (lb : Nat) (K : Nat) :
    ∀ fuel lo len, (∀ m, m < len → (lcsPair a b lb (lo + m)).2.2 ≤ K) →
      (lcsSpan a b lb fuel lo len).2.2 ≤ K := by
  intro fuel
  induction fuel with
  | zero => intro lo len _; simp [lcsSpan]
  | succ fuel ih =>
    intro lo len h
    rw [lcsSpan]
    split_ifs with h0 h1
    · simp
    · simpa using h 0 (by omega)
    · rcases bestCell_eq_or (lcsSpan a b lb fuel lo (len / 2))
        (lcsSpan a b lb fuel (lo + len / 2) (len - len / 2)) with he | he
      · rw [he]
        exact ih lo (len / 2) (fun m hm => h m (by omega))
      · rw [he]
        refine ih (lo + len / 2) (len - len / 2) (fun m hm => ?_)
        have := h (len / 2 + m) (by omega)
        simpa [Nat.add_assoc] using this

theorem lcsSpan_first (a b : List Char) (lb : Nat) :
    ∀ fuel lo len, len ≠ 0 → len ≤ fuel →
      (∀ m, m < len → (lcsPair a b lb (lo + m)).2.2 ≤ (lcsPair a b lb lo).2.2) →
      lcsSpan a b lb fuel lo len = lcsPair a b lb lo := by
  intro fuel
  induction fuel with
  | zero => intro lo len h0 hf _; omega
  | succ fuel ih =>
    intro lo len h0 hf h
    rw [lcsSpan]
    rw [if_neg h0]
    by_cases h1 : len = 1
    · rw [if_pos h1]
    · rw [if_neg h1]
      have hhalf : len / 2 ≠ 0 := by omega
      have hleft : lcsSpan a b lb fuel lo (len / 2) = lcsPair a b lb lo :=
        ih lo (len / 2) hhalf (by omega) (fun m hm => h m (by omega))
      have hright : (lcsSpan a b lb fuel (lo + len / 2) (len - len / 2)).2.2 ≤
          (lcsPair a b lb lo).2.2 := by
        refine lcsSpan_le a b lb _ fuel (lo + len / 2) (len - len / 2) (fun m hm => ?_)
        have := h (len / 2 + m) (by omega)
        simpa [Nat.add_assoc] using this
      rw [hleft]
      exact bestCell_left _ _ hright

theorem lcsPair_k (a b : List Char) (lb idx : Nat) :
    (lcsPair a b lb idx).2.2 = runLen (a.drop (idx / lb)) (b.drop (idx % lb)) := rfl

theorem lcsBlock_self (a : List Char) (h : a ≠ []) :
    lcsBlock a a = (0, 0, a.length) := by
  have hlen : a.length ≠ 0 := by simpa using h
  rw [lcsBlock]
  rw [lcsSpan_first a a a.length (a.length * a.length) 0 (a.length * a.length)
    (by positivity) le_rfl ?_]
  · rw [lcsPair]
    rw [Nat.zero_div, Nat.zero_mod, List.drop_zero, runLen_self]
  · intro m _
    rw [lcsPair_k, lcsPair_k]
    rw [Nat.zero_div, Nat.zero_mod, List.drop_zero, runLen_self]
    calc runLen (a.drop ((0 + m) / a.length)) (a.drop ((0 + m) % a.length))
        ≤ (a.drop ((0 + m) / a.length)).length := runLen_le_left _ _
      _ ≤ a.length := by simp

theorem lcsSpan_bounds (a b : List Char) :
    ∀ fuel lo len, lo + len ≤ a.length * b.length →
      (lcsSpan a b b.length fuel lo len).1 +
          (lcsSpan a b b.length fuel lo len).2.2 ≤ a.length ∧
        (lcsSpan a b b.length fuel lo len).2.1 +
          (lcsSpan a b b.length fuel lo len).2.2 ≤ b.length := by
  intro fuel
  induction fuel with
  | zero => intro lo len _; simp [lcsSpan]
  | succ fuel ih =>
    intro lo len hrange
    rw [lcsSpan]
    split_ifs with h0 h1
    · simp
    · have hlb : 0 < b.length := by
        rcases Nat.eq_zero_or_pos b.length with hz | hp
        · rw [hz, Nat.mul_zero] at hrange; omega
        · exact hp
      have hi : lo / b.length < a.length :=
        Nat.div_lt_of_lt_mul (show lo < b.length * a.length from by
          rw [Nat.mul_comm]; omega)
      have hj : lo % b.length < b.length := Nat.mod_lt _ hlb
      have hk1 : runLen (a.drop (lo / b.length)) (b.drop (lo % b.length)) ≤
          a.length - lo / b.length := by
        calc runLen (a.drop (lo / b.length)) (b.drop (lo % b.length))
            ≤ (a.drop (lo / b.length)).length := runLen_le_left _ _
          _ = a.length - lo / b.length := by simp
      have hk2 : runLen (a.drop (lo / b.length)) (b.drop (lo % b.length)) ≤
          b.length - lo % b.length := by
        calc runLen (a.drop (lo / b.length)) (b.drop (lo % b.length))
            ≤ (b.drop (lo % b.length)).length := runLen_le_right _ _
          _ = b.length - lo % b.length := by simp
      constructor
      · show lo / b.length +
          runLen (a.drop (lo / b.length)) (b.drop (lo % b.length)) ≤ a.length
        omega
      · show lo % b.length +
          runLen (a.drop (lo / b.length)) (b.drop (lo % b.length)) ≤ b.length
        omega
    · rcases bestCell_eq_or (lcsSpan a b b.length fuel lo (len / 2))
        (lcsSpan a b b.length fuel (lo + len / 2) (len - len / 2)) with he | he
      · rw [he]
        exact ih lo (len / 2) (by omega)
      · rw [he]
        exact ih (lo + len / 2) (len - len / 2) (by omega)

theorem lcsBlock_bounds (a b : List Char) :
    (lcsBlock a b).1 + (lcsBlock a b).2.2 ≤ a.length ∧
      (lcsBlock a b).2.1 + (lcsBlock a b).2.2 ≤ b.length := by
  rw [lcsBlock]
  exact lcsSpan_bounds a b _ 0 (a.length * b.length) (by omega)

theorem matchTotalGo_le : ∀ (fuel : Nat) (a b : List Char),
    matchTotalGo fuel a b ≤ min a.length b.length := by
  intro fuel
  induction fuel with
  | zero => intro a b; simp [matchTotalGo]
  | succ fuel ih =>
    intro a b
    rw [matchTotalGo]
    obtain ⟨hb1, hb2⟩ := lcsBlock_bounds a b
    rcases hblk : lcsBlock a b with ⟨i, j, k⟩
    rw [hblk] at hb1 hb2
    simp only at hb1 hb2 ⊢
    split_ifs with hk
    · omega
    · have h1 := ih (a.take i) (b.take j)
      have h2 := ih (a.drop (i + k)) (b.drop (j + k))
      simp only [List.length_take, List.length_drop] at h1 h2
      omega

theorem matchTotal_le (a b : List Char) : matchTotal a b ≤ min a.length b.length :=
  matchTotalGo_le _ a b

theorem matchTotalGo_nil_left (fuel : Nat) (b : List Char) :
    matchTotalGo fuel [] b = 0 := by
  cases fuel with
  | zero => rw [matchTotalGo]
  | succ fuel =>
    rw [matchTotalGo]
    rw [show lcsBlock [] b = (0, 0, 0) from by rw [lcsBlock]; simp [lcsSpan]]
    simp

theorem matchTotalGo_nil_right (fuel : Nat) (a : List Char) :
    matchTotalGo fuel a [] = 0 := by
  cases fuel with
  | zero => rw [matchTotalGo]
  | succ fuel =>
    rw [matchTotalGo]
    rw [show lcsBlock a [] = (0, 0, 0) from by rw [lcsBlock]; simp [lcsSpan]]
    simp

theorem matchTotal_self (a : List Char) : matchTotal a a = a.length := by
  cases a with
  | nil => rw [matchTotal]; simpa using matchTotalGo_nil_left 0 []
  | cons c as =>
    rw [matchTotal]
    rw [show (c :: as).length + (c :: as).length = (as.length + (c :: as).length) + 1
      from by simp [List.length_cons]; omega]
    rw [matchTotalGo]
    rw [lcsBlock_self (c :: as) (by simp)]
    simp [matchTotalGo_nil_left, List.drop_length]

theorem fuzzy_ratio_self (s : String) : fuzzy_ratio s s = 1 := by
  rw [fuzzy_ratio, seqRatio]
  rcases Nat.eq_zero_or_pos s.toList.length with hz | hp
  · rw [if_pos (by omega)]
  · rw [if_neg (by omega)]
    rw [matchTotal_self, Rat.mkRat_eq_div]
    have hL : (0 : ℚ) < 2 * (s.toList.length : ℚ) := by
      have h2 : (0 : ℚ) < (s.toList.length : ℚ) := by exact_mod_cast hp
      linarith
    push_cast
    rw [show ((s.toList.length : ℚ) + s.toList.length) = 2 * (s.toList.length : ℚ)
      from by ring]
    rw [div_self (ne_of_gt hL)]

theorem fuzzy_ratio_empty (s : String) (h : s ≠ "") : fuzzy_ratio s "" = 0 := by
  have hlen : s.toList.length ≠ 0 := by
    intro hc
    exact h (by
      have : s.toList = [] := List.length_eq_zero.mp hc
      cases s with
      | mk data => simpa [String.toList] using congrArg String.mk this)
  rw [fuzzy_ratio, seqRatio]
  rw [show ("" : String).toList = [] from rfl]
  rw [if_neg (by simpa using hlen)]
  rw [matchTotal, matchTotalGo_nil_right, Rat.mkRat_eq_div]
  norm_num

theorem fuzzy_ratio_nonneg (a b : String) : 0 ≤ fuzzy_ratio a b := by
  rw [fuzzy_ratio, seqRatio]
  split_ifs
  · norm_num
  · exact mkRat_nonneg _ _ (by positivity)

theorem fuzzy_ratio_le_one (a b : String) : fuzzy_ratio a b ≤ 1 := by
  rw [fuzzy_ratio, seqRatio]
  split_ifs with h
  · simp
  · rw [Rat.mkRat_eq_div]
    have ht : (0 : ℚ) < ((a.toList.length + b.toList.length : ℕ) : ℚ) := by
      exact_mod_cast Nat.pos_of_ne_zero h
    rw [div_le_one ht]
    have hm : 2 * matchTotal a.toList b.toList ≤
        a.toList.length + b.toList.length := by
      have := matchTotal_le a.toList b.toList
      omega
    exact_mod_cast hm

/-- Claim C7: the similarity measure is 1 on identical strings (the empty
string included), at most the 0.8 threshold against the empty string for
nonempty inputs, and always lies in the unit interval. -/
theorem claim_C7 (s : String) :
    fuzzy_ratio s s = 1 ∧
      (s ≠ "" → fuzzy_ratio s "" ≤ 4 / 5) ∧
      (∀ t : String, 0 ≤ fuzzy_ratio s t ∧ fuzzy_ratio s t ≤ 1) := by
  refine ⟨fuzzy_ratio_self s, fun h => ?_, fun t => ⟨fuzzy_ratio_nonneg s t, fuzzy_ratio_le_one s t⟩⟩
  rw [fuzzy_ratio_empty s h]
  norm_num

/-- Witness for C7 at concrete strings. -/
theorem claim_C7_witness :
    fuzzy_ratio "ab" "ab" = 1 ∧ fuzzy_ratio "ab" "" ≤ 4 / 5 ∧
      (0 ≤ fuzzy_ratio "ab" "cd" ∧ fuzzy_ratio "ab" "cd" ≤ 1) :=
  ⟨(claim_C7 "ab").1, (claim_C7 "ab").2.1 (by decide), (claim_C7 "ab").2.2 "cd"⟩

/-! ## Non-negativity of the composite score -/

theorem smFuzzyAvg_nonneg (tokens : List String) (combined : String) :
    0 ≤ smFuzzyAvg tokens combined := by
  rw [smFuzzyAvg]
  split_ifs with h
  · exact le_refl 0
  · rw [qdiv_eq, qsum_eq]
    refine div_nonneg (List.sum_nonneg ?_) (by positivity)
    intro f hf
    have hmem := List.mem_filter.mp hf
    have hlt : mkRat 7 10 < f := of_decide_eq_true hmem.2
    exact le_trans (by decide) (le_of_lt hlt)

theorem smProximity_nonneg (tokens : List String) (combined : String) :
    0 ≤ smProximity tokens combined := by
  rw [smProximity]
  split_ifs with h
  · rw [qmax_eq]
    exact le_max_left _ _
  · exact le_refl 0

theorem lengthPenalty_nonneg (n : Nat) : 0 ≤ lengthPenalty n := by
  rw [lengthPenalty, qmax_eq]
  exact le_max_left _ _

/-- Claim C8: the composite score of `_score_match` is non-negative for
every value, token list and path; in particular the length penalty is
floored at 0, and a flattened text of 500 characters gets penalty exactly
0 rather than a negative amount. -/
theorem claim_C8 :
    (∀ (val : Val) (tokens : List String) (path : String),
        0 ≤ score_match val tokens path) ∧
      lengthPenalty 500 = 0 ∧ (∀ n : Nat, 0 ≤ lengthPenalty n) := by
  refine ⟨fun val tokens path => ?_, by decide, lengthPenalty_nonneg⟩
  rw [score_match]
  split_ifs with h
  · exact le_refl 0
  · refine pyRound2_nonneg _ ?_
    rw [qadd_eq, qadd_eq, qadd_eq, qmul_eq, qmul_eq]
    have h1 : (0 : ℚ) ≤ (smOverlap tokens (smCombined val path) : ℚ) * mkRat 7 2 :=
      mul_nonneg (Nat.cast_nonneg _) (by decide)
    have h2 : (0 : ℚ) ≤ smFuzzyAvg tokens (smCombined val path) * 5 :=
      mul_nonneg (smFuzzyAvg_nonneg _ _) (by norm_num)
    have h3 := smProximity_nonneg tokens (smCombined val path)
    have h4 := lengthPenalty_nonneg (flattenVal val).length
    linarith

/-! ## The ranked search: sentinel, threshold, ordering and stability -/

instance : IsTotal (ℚ × String × Val) scoreGe :=
  ⟨fun a b => (le_total b.1 a.1).imp id id⟩

instance : IsTrans (ℚ × String × Val) scoreGe :=
  ⟨fun _ _ _ h1 h2 => le_trans h2 h1⟩

theorem filter_orderedInsert (p : (ℚ × String × Val) → Bool)
    (x : ℚ × String × Val) (l : List (ℚ × String × Val))
    (hp : ∀ y, p x = true → ¬ scoreGe x y → p y = false) :
    (l.orderedInsert scoreGe x).filter p =
      if p x then x :: l.filter p else l.filter p := by
  induction l with
  | nil => rw [List.orderedInsert, List.filter_cons]
  | cons y l ih =>
    rw [List.orderedInsert]
    by_cases hr : scoreGe x y
    · rw [if_pos hr, List.filter_cons]
    · rw [if_neg hr]
      cases hpx : p x with
      | false => simp [List.filter_cons, ih, hpx]
      | true =>
        have hy : p y = false := hp y hpx hr
        simp [List.filter_cons, ih, hpx, hy]

theorem filter_insertionSort (p : (ℚ × String × Val) → Bool)
    (l : List (ℚ × String × Val))
    (hp : ∀ x y, p x = true → ¬ scoreGe x y → p y = false) :
    (l.insertionSort scoreGe).filter p = l.filter p := by
  induction l with
  | nil => rfl
  | cons a l ih =>
    rw [List.insertionSort, filter_orderedInsert p a _ (hp a), List.filter_cons]
    rcases hpa : p a with hf | ht <;> simp [hpa, ih]

/-- Claim C3: ranked search never returns an empty collection; whenever no
candidate reaches the 3.0 threshold (in particular on the empty tree,
where the walker yields nothing), it returns exactly the single sentinel
pair. -/
theorem claim_C3 (n : NLP) (q : String) (d : Val) :
    n.smart_search q d ≠ [] ∧
      ((∀ c ∈ scoredCandidates q d, c.1 < 3) →
        n.smart_search q d = [("not in memory", Val.vnone)]) := by
  constructor
  · rw [NLP.smart_search]
    split_ifs with h
    · simp
    · simpa using h
  · intro h
    rw [NLP.smart_search]
    have hfil : (((scoredCandidates q d).insertionSort scoreGe).filter
        (fun c => decide (3 ≤ c.1))) = [] := by
      rw [List.filter_eq_nil_iff]
      intro c hc
      have hmem : c ∈ scoredCandidates q d :=
        (List.perm_insertionSort scoreGe (scoredCandidates q d)).mem_iff.mp hc
      simpa using not_le.mpr (h c hmem)
    rw [hfil]
    simp

/-- Witness for C3 on the empty tree. -/
theorem claim_C3_witness :
    NLP.smart_search ⟨[]⟩ "quantum entanglement" (Val.vdict []) ≠ [] ∧
      NLP.smart_search ⟨[]⟩ "quantum entanglement" (Val.vdict []) =
        [("not in memory", Val.vnone)] :=
  ⟨(claim_C3 ⟨[]⟩ "quantum entanglement" (Val.vdict [])).1,
    (claim_C3 ⟨[]⟩ "quantum entanglement" (Val.vdict [])).2 (by decide)⟩

/-- Claim C4: the non-sentinel output of ranked search is exactly the
walker candidates scoring at least 3.0, in descending score order, with
equal scores kept in walk-discovery order: there is a sorted list `l`
that is a permutation of the scored candidates, is pairwise descending,
agrees with the walk order on every score class, and determines the
output by threshold filtering with the sentinel fallback. -/
theorem claim_C4 (n : NLP) (q : String) (d : Val) :
    ∃ l : List (ℚ × String × Val),
      l.Perm (scoredCandidates q d) ∧
        l.Pairwise scoreGe ∧
        (∀ s : ℚ, l.filter (fun c => decide (c.1 = s)) =
          (scoredCandidates q d).filter (fun c => decide (c.1 = s))) ∧
        n.smart_search q d =
          (if ((l.filter (fun c => decide (3 ≤ c.1))).map (fun c => c.2)).isEmpty then
            [("not in memory", Val.vnone)]
          else (l.filter (fun c => decide (3 ≤ c.1))).map (fun c => c.2)) := by
  refine ⟨(scoredCandidates q d).insertionSort scoreGe,
    List.perm_insertionSort scoreGe _, List.sorted_insertionSort scoreGe _, ?_, rfl⟩
  intro s
  refine filter_insertionSort _ _ ?_
  intro x y hx hxy
  have hxs : x.1 = s := of_decide_eq_true hx
  have hlt : x.1 < y.1 := lt_of_not_le hxy
  have : ¬ (y.1 = s) := by rw [← hxs]; exact ne_of_gt hlt
  simpa using this

/-! ## The strict tokenizer never emits auxiliary words -/

theorem splitWsGo_no_ws : ∀ (cs acc : List Char),
    (∀ c ∈ acc, isPyWs c = false) →
    ∀ l ∈ splitWsGo cs acc, ∀ c ∈ l, isPyWs c = false := by
  intro cs
  induction cs with
  | nil =>
    intro acc hacc l hl c hc
    rw [splitWsGo] at hl
    split_ifs at hl with h
    · cases hl
    · rw [List.mem_singleton] at hl
      subst hl
      exact hacc c (List.mem_reverse.mp hc)
  | cons d cs ih =>
    intro acc hacc l hl c hc
    rw [splitWsGo] at hl
    split_ifs at hl with h1 h2
    · exact ih [] (by intro e he; cases he) l hl c hc
    · rcases List.mem_cons.mp hl with rfl | hl2
      · exact hacc c (List.mem_reverse.mp hc)
      · exact ih [] (by intro e he; cases he) l hl2 c hc
    · refine ih (d :: acc) ?_ l hl c hc
      intro e he
      rcases List.mem_cons.mp he with rfl | he2
      · exact Bool.not_eq_true _ ▸ eq_false_of_ne_true h1
      · exact hacc e he2

theorem pySplitWs_no_ws (s piece : String) (h : piece ∈ pySplitWs s) :
    ∀ c ∈ piece.toList, isPyWs c = false := by
  rw [pySplitWs] at h
  obtain ⟨l, hl, rfl⟩ := List.mem_map.mp h
  exact splitWsGo_no_ws s.toList [] (by intro e he; cases he) l hl

theorem lowerChar_ws (c : Char) : isPyWs (lowerChar c) = isPyWs c := by
  rw [lowerChar]
  cases hf : upperLowerTable.find? (fun pr => decide (pr.1 = c.toNat)) with
  | none => rfl
  | some pr =>
    have hmem : pr ∈ upperLowerTable := List.mem_of_find?_eq_some hf
    have hpred := List.find?_some hf
    have heq : pr.1 = c.toNat := of_decide_eq_true hpred
    have htab : ∀ q ∈ upperLowerTable, isPyWs (Char.ofNat q.2) = false ∧
        (decide (q.1 = 32) || decide (q.1 = 9) || decide (q.1 = 10) ||
          decide (q.1 = 13) || decide (q.1 = 11) || decide (q.1 = 12)) = false := by
      decide
    obtain ⟨h1, h2⟩ := htab pr hmem
    rw [h1, isPyWs, ← heq, h2]

theorem dropWhile_no_ws (l : List Char) (h : ∀ c ∈ l, isPyWs c = false) :
    l.dropWhile isPyWs = l := by
  cases l with
  | nil => rfl
  | cons c cs =>
    rw [List.dropWhile_cons]
    rw [if_neg (by rw [h c (List.mem_cons_self c cs)]; exact Bool.false_ne_true)]

theorem stripWs_no_ws (w : String) (h : ∀ c ∈ w.toList, isPyWs c = false) :
    stripWs w = w := by
  rw [stripWs]
  rw [dropWhile_no_ws w.toList h]
  rw [dropWhile_no_ws w.toList.reverse (by
    intro c hc
    exact h c (List.mem_reverse.mp hc))]
  rw [List.reverse_reverse]
  rfl

theorem pieceChain_no_ws (piece : String)
    (h : ∀ c ∈ piece.toList, isPyWs c = false) :
    ∀ c ∈ (stem (stripPunct (pyLower piece))).toList, isPyWs c = false := by
  have hlower : ∀ c ∈ (pyLower piece).toList, isPyWs c = false := by
    intro c hc
    obtain ⟨c0, hc0, rfl⟩ := List.mem_map.mp hc
    rw [lowerChar_ws]
    exact h c0 hc0
  have hpunct : ∀ c ∈ (stripPunct (pyLower piece)).toList, isPyWs c = false := by
    intro c hc
    exact hlower c (List.mem_of_mem_filter hc)
  intro c hc
  rw [stem] at hc
  cases hfind : suffixList.find? (fun suf =>
      suf.toList.isSuffixOf (stripPunct (pyLower piece)).toList &&
        decide (suf.length + 2 < (stripPunct (pyLower piece)).length)) with
  | none =>
    rw [hfind] at hc
    exact hpunct c hc
  | some suf =>
    rw [hfind] at hc
    exact hpunct c (List.take_subset _ _ hc)

/-- Claim C5: the strict tokenizer never emits any of the auxiliary words
is, are, was, were, why, how; a piece that normalizes to one of them is
discarded entirely. -/
theorem claim_C5 (n : NLP) (text w : String) (hw : w ∈ n.tokenize text) :
    w ∉ (["is", "are", "was", "were", "why", "how"] : List String) := by
  rw [NLP.tokenize] at hw
  obtain ⟨piece, hpiece, htok⟩ := List.mem_filterMap.mp hw
  rw [pieceToToken] at htok
  by_cases h1 : stem (stripPunct (pyLower piece)) ∈ auxWords
  · rw [if_pos h1] at htok
    cases htok
  · rw [if_neg h1] at htok
    by_cases h2 : stripWs (stem (stripPunct (pyLower piece))) = ""
    · rw [if_pos h2] at htok
      cases htok
    · rw [if_neg h2] at htok
      have hw3 := pieceChain_no_ws piece (pySplitWs_no_ws text piece hpiece)
      rw [stripWs_no_ws _ hw3] at htok
      have hweq : w = stem (stripPunct (pyLower piece)) :=
        (Option.some.injEq _ _).mp htok.symm
      rw [hweq]
      simpa [auxWords] using h1

/-- Witness for C5 on a concrete sentence. -/
theorem claim_C5_witness :
    "lights" ∈ NLP.tokenize ⟨[]⟩ "The lights are on!" ∧
      "lights" ∉ (["is", "are", "was", "were", "why", "how"] : List String) :=
  ⟨by decide, claim_C5 ⟨[]⟩ "The lights are on!" "lights" (by decide)⟩

/-! ## Command detection -/

/-- Claim C6: command detection does not deduplicate paths across tokens:
when two distinct tokens both resolve to the same path, the returned
mapping binds that path to the later token only, and the earlier token
appears neither among the mapping values nor in the unfound list. -/
theorem claim_C6 (memo : List (String × Val)) (t1 t2 p : String)
    (hne : t1 ≠ t2)
    (h1 : deep_search (.vdict memo) t1 [] = some (p, t1))
    (h2 : deep_search (.vdict memo) t2 [] = some (p, t2)) :
    NLP.detect_commands ⟨memo⟩ [t1, t2] = ([(p, t2)], []) ∧
      t1 ∉ (NLP.detect_commands ⟨memo⟩ [t1, t2]).1.map Prod.snd ∧
      t1 ∉ (NLP.detect_commands ⟨memo⟩ [t1, t2]).2 := by
  have hdc : NLP.detect_commands ⟨memo⟩ [t1, t2] = ([(p, t2)], []) := by
    rw [NLP.detect_commands]
    simp only [List.foldl_cons, List.foldl_nil]
    rw [h1, h2]
    simp [dictSet]
  refine ⟨hdc, ?_, ?_⟩
  · rw [hdc]
    simp [hne]
  · rw [hdc]
    simp

/-- Witness for C6: both hello and hellos resolve to the key k of the memo
and the later token wins. -/
theorem claim_C6_witness :
    NLP.detect_commands ⟨[("k", Val.vstr "hello")]⟩ ["hello", "hellos"] =
        ([("k", "hellos")], []) ∧
      "hello" ∉ (NLP.detect_commands ⟨[("k", Val.vstr "hello")]⟩
        ["hello", "hellos"]).1.map Prod.snd ∧
      "hello" ∉ (NLP.detect_commands ⟨[("k", Val.vstr "hello")]⟩
        ["hello", "hellos"]).2 :=
  claim_C6 [("k", Val.vstr "hello")] "hello" "hellos" "k"
    (by decide) (by decide) (by decide)

/-- Claim C9: ranked search depends only on the query and the data
argument; the memo stored at construction has no influence. -/
theorem claim_C9 (m1 m2 : Val) (n1 n2 : NLP) (q : String) (d : Val)
    (_h1 : mkNLP m1 = .ok n1) (_h2 : mkNLP m2 = .ok n2) :
    n1.smart_search q d = n2.smart_search q d := rfl

/-- Witness for C9 with two different valid memos. -/
theorem claim_C9_witness :
    mkNLP (Val.vdict []) = .ok ⟨[]⟩ ∧
      mkNLP (Val.vdict [("a", Val.vnone)]) = .ok ⟨[("a", Val.vnone)]⟩ ∧
      NLP.smart_search ⟨[]⟩ "query" (Val.vdict []) =
        NLP.smart_search ⟨[("a", Val.vnone)]⟩ "query" (Val.vdict []) :=
  ⟨rfl, rfl, claim_C9 (Val.vdict []) (Val.vdict [("a", Val.vnone)]) ⟨[]⟩
    ⟨[("a", Val.vnone)]⟩ "query" (Val.vdict []) rfl rfl⟩

/-- Claim C10: deep search never descends into non-string elements of a
list stored as a dict value; when no string element of the list clears the
threshold, the search returns none even if dicts nested inside the list
contain matching strings, and command detection reports the token as
unfound. -/
theorem claim_C10 (k w : String) (xs : List Val)
    (h : ∀ s : String, Val.vstr s ∈ xs → fuzzy_ratio w s ≤ 4 / 5) :
    deep_search (.vdict [(k, .vlist xs)]) w [] = none ∧
      NLP.detect_commands ⟨[(k, .vlist xs)]⟩ [w] = ([], [w]) := by
  have hst : simThreshold = 4 / 5 := by
    rw [simThreshold, Rat.mkRat_eq_div]
    norm_num
  have hany : (xs.any (fun x => match x with
      | .vstr s => decide (simThreshold < fuzzy_ratio w s)
      | _ => false)) = false := by
    rw [List.any_eq_false]
    intro x hx
    cases x with
    | vstr s =>
      have hle : fuzzy_ratio w s ≤ simThreshold := by
        rw [hst]
        exact h s hx
      exact fun hc => absurd (of_decide_eq_true hc) (not_lt.mpr hle)
    | vnum n => simp
    | vbool b => simp
    | vnone => simp
    | vlist ys => simp
    | vdict es => simp
  have hds : deep_search (.vdict [(k, .vlist xs)]) w [] = none := by
    rw [deep_search, deepSearchEntries]
    simp only [hany, Bool.false_eq_true, if_false]
    rw [deepSearchEntries]
  refine ⟨hds, ?_⟩
  rw [NLP.detect_commands]
  simp only [List.foldl_cons, List.foldl_nil]
  rw [hds]
  rfl

/-- Witness for C10: the matching string sits inside a dict nested in the
list, so the search misses it entirely. -/
theorem claim_C10_witness :
    deep_search (.vdict [("cmds", .vlist [.vdict [("inner", .vstr "hello")]])])
        "hello" [] = none ∧
      NLP.detect_commands ⟨[("cmds", .vlist [.vdict [("inner", .vstr "hello")]])]⟩
        ["hello"] = ([], ["hello"]) :=
  claim_C10 "cmds" "hello" [.vdict [("inner", .vstr "hello")]]
    (by intro s hs; simp at hs)

/-! ## The concrete scenarios -/

/-- Claim C1, counterexample to the stated scenario: on the memo binding
the key command to the string turn on lights, the token lights does not
produce the claimed mapping. -/
theorem claim_C1_counterexample :
    NLP.detect_commands ⟨[("command", Val.vstr "turn on lights")]⟩ ["lights"] ≠
      ([("command", "lights")], []) := by decide

/-- Claim C1 as amended: the similarity of lights and turn on lights is
0.6, which does not exceed the 0.8 threshold, so the command mapping is
empty and the token lands in the unfound list. -/
theorem claim_C1 :
    NLP.detect_commands ⟨[("command", Val.vstr "turn on lights")]⟩ ["lights"] =
        ([], ["lights"]) ∧
      fuzzy_ratio "lights" "turn on lights" = 3 / 5 := by
  constructor
  · decide
  · rw [show (3 : ℚ) / 5 = mkRat 3 5 from by rw [Rat.mkRat_eq_div]; norm_num]
    decide

/-- Claim C2: for the alice tree and the birthday query, the expanded
token set contains dob, birth, born and birthday; the walker surfaces the
date-of-birth leaf; its composite score exceeds 3.0; and the pair appears
in the ranked output. -/
theorem claim_C2 :
    ("dob" ∈ expand_tokens (tokenize "when was alice born") ∧
        "birth" ∈ expand_tokens (tokenize "when was alice born") ∧
        "born" ∈ expand_tokens (tokenize "when was alice born") ∧
        "birthday" ∈ expand_tokens (tokenize "when was alice born")) ∧
      ("info → persons → alice → dob", Val.vstr "1990-05-01") ∈
        search_json aliceTree (expand_tokens (tokenize "when was alice born")) none "" ∧
      (3 : ℚ) < score_match (Val.vstr "1990-05-01")
        (expand_tokens (tokenize "when was alice born"))
        "info → persons → alice → dob" ∧
      ("info → persons → alice → dob", Val.vstr "1990-05-01") ∈
        NLP.smart_search ⟨[]⟩ "when was alice born" aliceTree := by
  refine ⟨by decide, by decide, by decide, by decide⟩
